import Mathlib

/-!
# Verification of the go-priam snapshot-chain model and orchestration pipeline

Shallow embedding of the core of the `go-priam` Cassandra backup/restore
tool: the key codec (`getFileKey`), the snapshot chain index
(`SnapshotHistory` with `Add`, `List`, `Keys`, `Valid`, `Parent`), the
backup orchestration control flow (`Backup` in `prium.go`), the restore
download step (`downloadKeys` in `s3.go`) and the bulk-load fallback loop
(`sstableload` in `cassandra.go`).

Strings are Lean `String`s; Go maps are modelled as association lists whose
key sets stay duplicate-free; Go's `map` iteration non-determinism is
irrelevant to every modelled observation (`List()` sorts, and the download
and upload loops are modelled over the explicit key list).  A Go function
that can panic (index out of range in `Add`) returns `Option`; a Go
function returning `error` returns `Option String` (`none` = nil error)
or `Except String`.
-/

/-- Go `strings.Split(s, "/")` restricted to the one-character separator
used by the source: splits the character list around each `'/'`,
keeping empty fragments, and returns `[""]` on the empty string. -/
def splitSlashAux : List Char → List (List Char)
  | [] => [[]]
  | c :: cs =>
    if c = '/' then [] :: splitSlashAux cs
    else
      match splitSlashAux cs with
      | [] => [[c]]
      | h :: t => (c :: h) :: t

/-- Go `strings.Split(key, "/")`. -/
def splitSlash (s : String) : List String :=
  (splitSlashAux s.data).map fun l => ⟨l⟩

/-- Lexicographic comparison of character lists, the order Go's `<` on
strings induces (byte-wise comparison; UTF-8 byte order and code-point
order agree). -/
def charsLt : List Char → List Char → Bool
  | [], [] => false
  | [], _ :: _ => true
  | _ :: _, [] => false
  | a :: as, b :: bs => if a < b then true else if a = b then charsLt as bs else false

/-- Go `s < t` on strings. -/
def strLt (a b : String) : Bool := charsLt a.data b.data

/-- Go `s <= t` on strings (the total order underlying `sort.Strings`). -/
def strLe (a b : String) : Bool := !(strLt b a)

/-- Go `strings.HasSuffix`. -/
def hasSuffix (s suf : String) : Bool :=
  decide (suf.data.reverse <+: s.data.reverse)

/-- Go `strings.TrimSuffix(s, suf)`: drops `suf` from the end of `s` when
present, otherwise returns `s` unchanged. -/
def trimSuffix (s suf : String) : String :=
  if hasSuffix s suf then ⟨(s.data.reverse.drop suf.data.length).reverse⟩ else s

/-- One step of Go `path.Clean`'s element processing: `""` and `"."`
elements vanish, `".."` pops the last kept element (or is kept itself when
the path is relative and there is nothing left to pop), and any other
element is kept. -/
def cleanStep (rooted : Bool) (acc : List String) (part : String) : List String :=
  if part = "" ∨ part = "." then acc
  else if part = ".." then
    if rooted then acc.dropLast
    else
      match acc.getLast? with
      | none => [".."]
      | some last => if last = ".." then acc ++ [".."] else acc.dropLast
  else acc ++ [part]

/-- Go `path.Clean`: lexical simplification of a slash-separated path
(iterated application of the four rules from the `path.Clean`
documentation; returns `"."` for an empty result of a relative path). -/
def pathClean (p : String) : String :=
  if p = "" then "."
  else
    let rooted := (splitSlash p).head? = some ""
    let kept := ((splitSlash p).foldl (cleanStep rooted) [])
    let joined := String.intercalate "/" kept
    if rooted then "/" ++ joined
    else if joined = "" then "." else joined

/-- Go `path.Split(p)`: splits after the final `'/'`, the directory part
keeping its trailing slash; `("", p)` when `p` has no slash. -/
def pathSplit (p : String) : String × String :=
  let r := p.data.reverse
  let base := (r.takeWhile (fun c => c ≠ '/')).reverse
  let dir := (r.drop base.length).reverse
  (⟨dir⟩, ⟨base⟩)

/-- `getFileKey` from `s3.go`: builds the S3 object key
`/<basePath>/<keyspace>/<parent>/<timestamp>/<host><dir><base>.gz`,
where `dir`/`base` come from the captured file's path with one trailing
directory level stripped for an incremental backup and two for a full
one. -/
def getFileKey (basePath keyspace parent timestamp host file : String)
    (incremental : Bool) : String :=
  let s1 := pathSplit (pathClean file)
  let base := s1.2
  let d1 := (pathSplit (pathClean s1.1)).1
  let dir := if !incremental then (pathSplit (pathClean d1)).1 else d1
  "/" ++ basePath ++ "/" ++ keyspace ++ "/" ++ parent ++ "/" ++ timestamp
    ++ "/" ++ host ++ dir ++ base ++ ".gz"

/-! ## Association-list model of Go maps -/

/-- Lookup in an association list (Go map read `m[k]`, comma-ok form). -/
def alookup {α : Type} (m : List (String × α)) (k : String) : Option α :=
  match m with
  | [] => none
  | (k', v) :: t => if k' = k then some v else alookup t k

/-- Go map write `m[k] = v`: replaces the binding of `k` when present,
otherwise appends a new binding. -/
def aset {α : Type} (m : List (String × α)) (k : String) (v : α) :
    List (String × α) :=
  match m with
  | [] => [(k, v)]
  | (k', v') :: t => if k' = k then (k', v) :: t else (k', v') :: aset t k v

/-- Go `m[k] = append(m[k], x)` on a `map[string][]string`: appends `x`
to the (possibly nil) slice stored at `k`. -/
def aappend (m : List (String × List String)) (k : String) (x : String) :
    List (String × List String) :=
  match m with
  | [] => [(k, [x])]
  | (k', v') :: t =>
    if k' = k then (k', v' ++ [x]) :: t else (k', v') :: aappend t k x

/-! ## SnapshotHistory (snapshot.go) -/

/-- `SnapshotHistory` from `snapshot.go`: `parent` maps a snapshot id to
its parent when incremental; `keys` maps a snapshot id to the list of S3
keys recorded for it. -/
structure SnapshotHistory where
  parent : List (String × String)
  keys : List (String × List String)
deriving DecidableEq

/-- `NewSnapshotHistory()`. -/
def SnapshotHistory.empty : SnapshotHistory := ⟨[], []⟩

/-- `SnapshotHistory.Add(key)`: splits the key on `'/'`, reads `parts[2]`
as the parent and `parts[3]` as the timestamp, records the parent link
when the two differ, and appends the key under the timestamp.  Go panics
(index out of range) when the key has fewer than four slash-separated
parts; that case is `none`. -/
def SnapshotHistory.Add (h : SnapshotHistory) (key : String) :
    Option SnapshotHistory :=
  let parts := splitSlash key
  match parts[2]?, parts[3]? with
  | some parent, some timestamp =>
    let h1 := if parent ≠ timestamp
      then { h with parent := aset h.parent timestamp parent } else h
    some { h1 with keys := aappend h1.keys timestamp key }
  | _, _ => none

/-- Fold `Add` over a list of keys starting from a given history. -/
def addAll (h : SnapshotHistory) : List String → Option SnapshotHistory
  | [] => some h
  | k :: t => (h.Add k).bind fun h' => addAll h' t

/-- `SnapshotHistory.Valid(snapshot)`. -/
def SnapshotHistory.Valid (h : SnapshotHistory) (snapshot : String) : Bool :=
  (alookup h.keys snapshot).isSome

/-- `SnapshotHistory.Parent(snapshot)`: the recorded parent, or the
snapshot itself when none is recorded. -/
def SnapshotHistory.Parent (h : SnapshotHistory) (snapshot : String) : String :=
  match alookup h.parent snapshot with
  | some parent => parent
  | none => snapshot

/-- The loop body of `SnapshotHistory.Keys(snapshot)`, indexed by fuel.
`none` means the Go loop is still running after `fuel` iterations;
`some none` means Go returned the "did not find snapshot" error;
`some (some l)` means Go returned the key list `l`.  Each iteration looks
the current snapshot up in `keys` (missing ⇒ error), appends its keys to
the accumulator, then follows `parent` (missing ⇒ return accumulator). -/
def keysWalk (h : SnapshotHistory) :
    Nat → String → List String → Option (Option (List String))
  | 0, _, _ => none
  | fuel + 1, snapshot, acc =>
    match alookup h.keys snapshot with
    | none => some none
    | some k =>
      match alookup h.parent snapshot with
      | none => some (some (acc ++ k))
      | some p => keysWalk h fuel p (acc ++ k)

/-- `SnapshotHistory.Keys(snapshot)` run with the given fuel bound. -/
def SnapshotHistory.Keys (h : SnapshotHistory) (snapshot : String)
    (fuel : Nat) : Option (Option (List String)) :=
  keysWalk h fuel snapshot []

/-- `SnapshotHistory.List()`: the snapshot ids present in `keys`, sorted
ascending by string order (`sort.Strings`). -/
def SnapshotHistory.List (h : SnapshotHistory) : List String :=
  (h.keys.map Prod.fst).insertionSort fun a b => strLe a b = true

/-- The iterated parent map: `iterParent h n id` is the snapshot reached
from `id` after `n` steps of `parent` lookups, `none` when some lookup on
the way is missing. -/
def iterParent (h : SnapshotHistory) : Nat → String → Option String
  | 0, id => some id
  | n + 1, id =>
    match alookup h.parent id with
    | none => none
    | some p => iterParent h n p

/-- A broken chain: some snapshot reached from `id` through the parent
mapping has no recorded artifacts. -/
def BrokenChain (h : SnapshotHistory) (id : String) : Prop :=
  ∃ n s, iterParent h n id = some s ∧ alookup h.keys s = none

/-- A complete parent chain: consecutive elements are parent links and
the last element has no recorded parent. -/
def isChain (h : SnapshotHistory) : List String → Bool
  | [] => false
  | [a] => (alookup h.parent a).isNone
  | a :: b :: t => alookup h.parent a == some b && isChain h (b :: t)

/-- The artifact layer of one snapshot (empty when unrecorded). -/
def layer (h : SnapshotHistory) (a : String) : List String :=
  (alookup h.keys a).getD []

/-! ## Backup orchestration (prium.go) -/

/-- The three per-host stages of `Prium.Backup`'s host loop. -/
inductive Stage
  | snapshot
  | upload
  | delete
deriving DecidableEq

/-- The wrapped error message `errors.Wrap` produces for a failing stage:
`"snapshot @ <host>: <cause>"`, `"upload @ <host>: <cause>"` or
`"delete @ <host>: <cause>"`. -/
def stageMsg (st : Stage) (host cause : String) : String :=
  match st with
  | .snapshot => "snapshot @ " ++ host ++ ": " ++ cause
  | .upload => "upload @ " ++ host ++ ": " ++ cause
  | .delete => "delete @ " ++ host ++ ": " ++ cause

/-- Per-host effects of the backup loop, abstracting the collaborators:
`snap host ts` is `cassandra.Snapshot(host, timestamp)` returning the
captured files and directories, `up parent ts host files` is
`s3.UploadFiles`, and `del host dirs` is `cassandra.deleteSnapshot`. -/
structure BackupEffects where
  snap : String → String → Except String (List String × List String)
  up : String → String → String → List String → Except String Unit
  del : String → List String → Except String Unit

/-- The host loop of `Prium.Backup`: for each host run snapshot, upload,
delete in order; on the first failing stage return the wrapped error and
stop.  Also returns the trace of stage invocations actually performed. -/
def processHosts (eff : BackupEffects) (parent timestamp : String) :
    List String → Option String × List (String × Stage)
  | [] => (none, [])
  | host :: rest =>
    match eff.snap host timestamp with
    | .error e => (some (stageMsg .snapshot host e), [(host, .snapshot)])
    | .ok (files, dirs) =>
      match eff.up parent timestamp host files with
      | .error e =>
        (some (stageMsg .upload host e), [(host, .snapshot), (host, .upload)])
      | .ok _ =>
        match eff.del host dirs with
        | .error e =>
          (some (stageMsg .delete host e),
            [(host, .snapshot), (host, .upload), (host, .delete)])
        | .ok _ =>
          let r := processHosts eff parent timestamp rest
          (r.1, [(host, .snapshot), (host, .upload), (host, .delete)] ++ r.2)

/-- Outcome of a `Prium.Backup` run: the returned error (if any), the
parent and incremental flag in force during the host loop, and the trace
of per-host stage invocations. -/
structure BackupResult where
  err : Option String
  parent : String
  incremental : Bool
  trace : List (String × Stage)
deriving DecidableEq

/-- `Prium.Backup` from `prium.go`: fails when no hosts are found; fails
with the non-monotonic-timestamp error when the last entry of the
snapshot list is strictly greater than the new timestamp; picks the last
snapshot as parent when incremental and history is non-empty, otherwise
keeps `parent = timestamp` and forces incremental off; then runs the
per-host loop, aborting on the first wrapped failure.  `snapshots` is
`hist.List()` and `timestamp` the value of `NewTimestamp()`. -/
def Backup (eff : BackupEffects) (hosts snapshots : List String)
    (timestamp : String) (incremental : Bool) : BackupResult :=
  if hosts.isEmpty then
    ⟨some "unable to get any cassandra hosts", timestamp, incremental, []⟩
  else
    let lastGreater :=
      match snapshots.getLast? with
      | some last => strLt timestamp last
      | none => false
    if lastGreater then
      ⟨some ("new timestamp " ++ timestamp ++ " less than last"),
        timestamp, incremental, []⟩
    else
      let pi :=
        match snapshots.getLast?, incremental with
        | some last, true => (last, true)
        | _, _ => (timestamp, false)
      let r := processHosts eff pi.1 timestamp hosts
      ⟨r.1, pi.1, pi.2, r.2⟩

/-- The first failing stage of the backup loop on one host, with its
cause, `none` when all three stages succeed. -/
def firstFailure (eff : BackupEffects) (parent timestamp host : String) :
    Option (Stage × String) :=
  match eff.snap host timestamp with
  | .error e => some (.snapshot, e)
  | .ok (files, dirs) =>
    match eff.up parent timestamp host files with
    | .error e => some (.upload, e)
    | .ok _ =>
      match eff.del host dirs with
      | .error e => some (.delete, e)
      | .ok _ => none

/-! ## Restore download step (s3.go) -/

/-- The local staging file name `downloadKey` uses:
`TrimSuffix(prefix + "/" + key, ".gz")`. -/
def stagingFile (pre key : String) : String :=
  trimSuffix (pre ++ "/" ++ key) ".gz"

/-- `S3.downloadKeys` from `s3.go`: downloads the given keys in the order
of the list, staging each under `stagingFile`; stops at the first failing
download with the wrapped error.  `ok key = none` means the S3 download
of `key` succeeds.  Returns the staged `(key, file)` pairs in download
order. -/
def downloadKeys (ok : String → Option String) (keys : List String)
    (pre : String) : Except String (List (String × String)) :=
  match keys with
  | [] => .ok []
  | key :: rest =>
    match ok key with
    | some e => .error ("download " ++ key ++ ": " ++ e)
    | none =>
      match downloadKeys ok rest pre with
      | .error e => .error e
      | .ok files => .ok ((key, stagingFile pre key) :: files)

/-! ## Bulk load (cassandra.go) -/

/-- The inner host loop of `Cassandra.sstableload`: runs the loader
command against each candidate host in turn, stopping after the first
success (`break`).  Returns the trace of attempts with each attempt's
error.  The Go loop declares its error with `out, err := ...`, a fresh
variable that shadows the enclosing `var err error`; the value returned
here is observable only as the trace. -/
def tryHosts (runH : String → Option String) : List String →
    List (String × Option String)
  | [] => []
  | host :: rest =>
    match runH host with
    | none => [(host, none)]
    | some e => (host, some e) :: tryHosts runH rest

/-- `Cassandra.sstableload` from `cassandra.go`: for each staged
directory, attempt the loader on each host until one succeeds, then check
`err` — but the inner loop's `out, err :=` shadowed the outer `err`,
which therefore still holds its zero value `nil` when checked, so the
error branch is never taken.  Returns the Go result together with the
trace of loader invocations. -/
def sstableload (run : String → String → Option String)
    (sstableloaderPath target : String) (hosts : List String)
    (dirs : List String) : Option String × List (String × String) :=
  match dirs with
  | [] => (none, [])
  | dir :: rest =>
    let attempts := tryHosts
      (fun host => run target
        (sstableloaderPath ++ " --nodes " ++ host ++ " -v " ++ dir)) hosts
    let errOuter : Option String := none
    match errOuter with
    | some e => (some ("error running sstableloader: " ++ e),
        attempts.map fun a => (dir, a.1))
    | none =>
      let r := sstableload run sstableloaderPath target hosts rest
      (r.1, (attempts.map fun a => (dir, a.1)) ++ r.2)

/-! ## Helper lemmas -/

/-- The outer `err` checked by `sstableload` is never assigned (the inner
loop's `:=` declares a fresh variable), so the function's error result is
`nil` for every input. -/
theorem sstableload_fst_eq_none (run : String → String → Option String)
    (path target : String) (hosts dirs : List String) :
    (sstableload run path target hosts dirs).1 = none := by
  induction dirs with
  | nil => rfl
  | cons d rest ih => simpa [sstableload] using ih

/-- All-ok backup effects: every collaborator call succeeds. -/
def effOk : BackupEffects where
  snap := fun _ _ => .ok ([], [])
  up := fun _ _ _ _ => .ok ()
  del := fun _ _ => .ok ()

/-- A one-element history: one full (root) snapshot `"t1"` with a single
artifact key. -/
def hFull : SnapshotHistory :=
  ⟨[], [("t1", ["/e/t1/t1/hA/cf/f1.gz"])]⟩

theorem hFull_addAll :
    addAll SnapshotHistory.empty ["/e/t1/t1/hA/cf/f1.gz"] = some hFull := by
  decide

/-- A two-layer history: root `"t1"`, incremental child `"t2"`. -/
def hChain : SnapshotHistory :=
  ⟨[("t2", "t1")],
    [("t1", ["/e/t1/t1/hA/cf/f1.gz"]), ("t2", ["/e/t1/t2/hA/cf/f2.gz"])]⟩

theorem hChain_addAll :
    addAll SnapshotHistory.empty
      ["/e/t1/t1/hA/cf/f1.gz", "/e/t1/t2/hA/cf/f2.gz"] = some hChain := by
  decide

/-! ## C6: bulk-load fallback error reporting -/

/-- C6: the claim says that when every live host fails for some staged
directory, the restore returns a BulkLoadFailed error.  In the code the
inner loop's `out, err := c.agent.Run(...)` declares a fresh `err` that
shadows the enclosing `var err error`, so the post-loop check reads the
never-assigned outer variable and `sstableload` returns nil even when the
loader failed on every host: at the concrete input where both hosts fail
for the single directory, the result is success, and in general the
function can never return an error. -/
theorem C6_sstableload_reports_success_when_all_hosts_fail :
    (sstableload (fun _ _ => some "connection refused")
        "/usr/bin/sstableloader" "target" ["host1", "host2"]
        ["/tmp/dir1"]).1 = none ∧
    ∀ (run : String → String → Option String) (path target : String)
      (hosts dirs : List String),
      (sstableload run path target hosts dirs).1 = none := by
  refine ⟨?_, fun run path target hosts dirs =>
    sstableload_fst_eq_none run path target hosts dirs⟩
  decide

/-! ## C2: timestamp monotonicity check -/

/-- C2 counterexample: the claim requires Backup to fail with the
non-monotonic-timestamp error whenever the new timestamp is ≤ the last
snapshot id, including equality.  With history `["t1"]` and new timestamp
`"t1"` (the equality case) and all collaborators succeeding, Backup
returns no error and runs the host loop. -/
theorem C2_counterexample_equal_timestamp_accepted :
    addAll SnapshotHistory.empty ["/e/t1/t1/hA/cf/f1.gz"] = some hFull ∧
    hFull.List = ["t1"] ∧
    (Backup effOk ["hostA"] hFull.List "t1" true).err = none ∧
    (Backup effOk ["hostA"] hFull.List "t1" true).trace ≠ [] := by
  refine ⟨hFull_addAll, by decide, by decide, by decide⟩

/-- C2 (amended): Backup fails with the non-monotonic-timestamp error,
before any per-host capture or upload is attempted, exactly when the last
entry of `List()` is lexicographically strictly greater than the newly
generated timestamp; the equality case is accepted. -/
theorem C2_nonmonotonic_strictly_greater_fails_before_hosts
    (eff : BackupEffects) (h : SnapshotHistory) (hosts : List String)
    (timestamp last : String) (incremental : Bool)
    (hhosts : hosts ≠ [])
    (hlast : (h.List).getLast? = some last)
    (hgt : strLt timestamp last = true) :
    (Backup eff hosts h.List timestamp incremental).err =
      some ("new timestamp " ++ timestamp ++ " less than last") ∧
    (Backup eff hosts h.List timestamp incremental).trace = [] := by
  have hne : hosts.isEmpty = false := by
    cases hosts with
    | nil => exact absurd rfl hhosts
    | cons a t => rfl
  constructor <;> simp [Backup, hne, hlast, hgt]

/-- Witness for the amended C2 theorem at a concrete input. -/
theorem C2_nonmonotonic_witness :
    (Backup effOk ["hostA"] hFull.List "t0" true).err =
      some ("new timestamp " ++ "t0" ++ " less than last") ∧
    (Backup effOk ["hostA"] hFull.List "t0" true).trace = [] :=
  C2_nonmonotonic_strictly_greater_fails_before_hosts effOk hFull ["hostA"]
    "t0" "t1" true (by decide) (by decide) (by decide)

/-! ## Order properties of the Go string comparison -/

theorem charsLt_asymm (a b : List Char) (h : charsLt a b = true) :
    charsLt b a = false := by
  induction a generalizing b with
  | nil =>
    cases b with
    | nil => simp [charsLt] at h
    | cons y ys => simp [charsLt]
  | cons x xs ih =>
    cases b with
    | nil => simp [charsLt] at h
    | cons y ys =>
      simp only [charsLt] at h ⊢
      by_cases hxy : x < y
      · have h1 : ¬ y < x := lt_asymm hxy
        have h2 : ¬ y = x := fun e => absurd (e ▸ hxy) (lt_irrefl x)
        simp [h1, h2]
      · by_cases hxe : x = y
        · subst hxe
          simp [hxy] at h
          simp [lt_irrefl, ih ys h]
        · simp [hxy, hxe] at h

theorem charsLt_trichotomy (a b : List Char) :
    charsLt a b = true ∨ a = b ∨ charsLt b a = true := by
  induction a generalizing b with
  | nil =>
    cases b with
    | nil => exact Or.inr (Or.inl rfl)
    | cons y ys => exact Or.inl (by simp [charsLt])
  | cons x xs ih =>
    cases b with
    | nil => exact Or.inr (Or.inr (by simp [charsLt]))
    | cons y ys =>
      rcases lt_trichotomy x y with hxy | hxy | hxy
      · exact Or.inl (by simp [charsLt, hxy])
      · subst hxy
        rcases ih ys with h | h | h
        · exact Or.inl (by simp [charsLt, lt_irrefl, h])
        · exact Or.inr (Or.inl (by rw [h]))
        · exact Or.inr (Or.inr (by simp [charsLt, lt_irrefl, h]))
      · have h1 : ¬ x < y := lt_asymm hxy
        have h2 : ¬ x = y := fun e => absurd (e ▸ hxy) (lt_irrefl x)
        exact Or.inr (Or.inr (by simp [charsLt, hxy]))

theorem charsLt_trans (a b c : List Char) (hab : charsLt a b = true)
    (hbc : charsLt b c = true) : charsLt a c = true := by
  induction a generalizing b c with
  | nil =>
    cases c with
    | nil =>
      cases b with
      | nil => simp [charsLt] at hab
      | cons y ys => simp [charsLt] at hbc
    | cons z zs => simp [charsLt]
  | cons x xs ih =>
    cases b with
    | nil => simp [charsLt] at hab
    | cons y ys =>
      cases c with
      | nil => simp [charsLt] at hbc
      | cons z zs =>
        simp only [charsLt] at hab hbc ⊢
        by_cases hxy : x < y
        · by_cases hyz : y < z
          · simp [lt_trans hxy hyz]
          · by_cases hye : y = z
            · subst hye; simp [hxy]
            · simp [hyz, hye] at hbc
        · by_cases hxe : x = y
          · subst hxe
            simp [hxy] at hab
            by_cases hyz : x < z
            · simp [hyz]
            · by_cases hye : x = z
              · subst hye
                simp [hyz] at hbc
                simp [lt_irrefl, ih ys zs hab hbc]
              · simp [hyz, hye] at hbc
          · simp [hxy, hxe] at hab

theorem strLe_total (a b : String) : strLe a b = true ∨ strLe b a = true := by
  by_cases h : charsLt b.data a.data = true
  · exact Or.inr (by simp [strLe, strLt, charsLt_asymm _ _ h])
  · exact Or.inl (by simp [strLe, strLt]; simpa using h)

theorem strLe_trans (a b c : String) (hab : strLe a b = true)
    (hbc : strLe b c = true) : strLe a c = true := by
  simp only [strLe, strLt, Bool.not_eq_true', Bool.not_eq_eq_eq_not] at hab hbc ⊢
  by_cases hca : charsLt c.data a.data = true
  · rcases charsLt_trichotomy a.data b.data with h | h | h
    · have := charsLt_trans _ _ _ hca h
      simp [this] at hbc
    · rw [← h] at hbc; simp [hca] at hbc
    · simp [h] at hab
  · simpa using hca

theorem strLt_of_le_of_ne (a b : String) (h1 : strLe a b = true)
    (h2 : a ≠ b) : strLt a b = true := by
  rcases charsLt_trichotomy a.data b.data with h | h | h
  · exact h
  · exact absurd (String.ext h) h2
  · simp [strLe, strLt, h] at h1

instance : IsTotal String fun a b => strLe a b = true := ⟨strLe_total⟩

instance : IsTrans String fun a b => strLe a b = true := ⟨strLe_trans⟩

/-! ## Backup loop lemmas -/

/-- The full trace one successful host contributes. -/
def okTrace (host : String) : List (String × Stage) :=
  [(host, .snapshot), (host, .upload), (host, .delete)]

/-- The trace a host failing at the given stage contributes. -/
def failTrace (st : Stage) (host : String) : List (String × Stage) :=
  match st with
  | .snapshot => [(host, .snapshot)]
  | .upload => [(host, .snapshot), (host, .upload)]
  | .delete => [(host, .snapshot), (host, .upload), (host, .delete)]

theorem processHosts_cons_ok (eff : BackupEffects) (parent timestamp : String)
    (host : String) (rest : List String)
    (hok : firstFailure eff parent timestamp host = none) :
    processHosts eff parent timestamp (host :: rest) =
      ((processHosts eff parent timestamp rest).1,
        okTrace host ++ (processHosts eff parent timestamp rest).2) := by
  cases hs : eff.snap host timestamp with
  | error e => simp [firstFailure, hs] at hok
  | ok fd =>
    obtain ⟨files, dirs⟩ := fd
    cases hu : eff.up parent timestamp host files with
    | error e => simp [firstFailure, hs, hu] at hok
    | ok u =>
      cases hd : eff.del host dirs with
      | error e => simp [firstFailure, hs, hu, hd] at hok
      | ok d => simp [processHosts, hs, hu, hd, okTrace]

theorem processHosts_cons_fail (eff : BackupEffects) (parent timestamp : String)
    (host : String) (rest : List String) (st : Stage) (cause : String)
    (hbad : firstFailure eff parent timestamp host = some (st, cause)) :
    processHosts eff parent timestamp (host :: rest) =
      (some (stageMsg st host cause), failTrace st host) := by
  cases hs : eff.snap host timestamp with
  | error e =>
    simp [firstFailure, hs] at hbad
    obtain ⟨h1, h2⟩ := hbad
    subst h1; subst h2
    simp [processHosts, hs, failTrace]
  | ok fd =>
    obtain ⟨files, dirs⟩ := fd
    cases hu : eff.up parent timestamp host files with
    | error e =>
      simp [firstFailure, hs, hu] at hbad
      obtain ⟨h1, h2⟩ := hbad
      subst h1; subst h2
      simp [processHosts, hs, hu, failTrace]
    | ok u =>
      cases hd : eff.del host dirs with
      | error e =>
        simp [firstFailure, hs, hu, hd] at hbad
        obtain ⟨h1, h2⟩ := hbad
        subst h1; subst h2
        simp [processHosts, hs, hu, hd, failTrace]
      | ok d => simp [firstFailure, hs, hu, hd] at hbad

theorem processHosts_append_ok (eff : BackupEffects) (parent timestamp : String)
    (good rest : List String)
    (hgood : ∀ g ∈ good, firstFailure eff parent timestamp g = none) :
    processHosts eff parent timestamp (good ++ rest) =
      ((processHosts eff parent timestamp rest).1,
        good.flatMap okTrace ++ (processHosts eff parent timestamp rest).2) := by
  induction good with
  | nil => simp
  | cons g t ih =>
    have hg := hgood g (List.mem_cons_self g t)
    have ht : ∀ x ∈ t, firstFailure eff parent timestamp x = none :=
      fun x hx => hgood x (List.mem_cons_of_mem g hx)
    rw [List.cons_append, processHosts_cons_ok eff parent timestamp g _ hg,
      ih ht]
    simp

theorem processHosts_all_ok (eff : BackupEffects) (parent timestamp : String)
    (hosts : List String)
    (hok : ∀ g ∈ hosts, firstFailure eff parent timestamp g = none) :
    (processHosts eff parent timestamp hosts).1 = none := by
  have h1 := processHosts_append_ok eff parent timestamp hosts [] hok
  rw [List.append_nil] at h1
  rw [h1]
  rfl

/-- The parent snapshot id Backup settles on: the last existing snapshot
when incremental was requested and history is non-empty, otherwise the new
timestamp itself. -/
def chosenParent (snapshots : List String) (timestamp : String)
    (incremental : Bool) : String :=
  match snapshots.getLast?, incremental with
  | some last, true => last
  | _, _ => timestamp

/-- The incremental flag after Backup's parent decision: stays on only
when it was requested and history is non-empty. -/
def chosenInc (snapshots : List String) (incremental : Bool) : Bool :=
  match snapshots.getLast?, incremental with
  | some _, true => true
  | _, _ => false

/-- Normal form of a Backup run that passes the host and monotonicity
checks. -/
theorem Backup_run (eff : BackupEffects) (hosts snapshots : List String)
    (timestamp : String) (incremental : Bool)
    (hne : hosts.isEmpty = false)
    (hmono : ∀ l, snapshots.getLast? = some l → strLt timestamp l = false) :
    Backup eff hosts snapshots timestamp incremental =
      ⟨(processHosts eff (chosenParent snapshots timestamp incremental)
          timestamp hosts).1,
        chosenParent snapshots timestamp incremental,
        chosenInc snapshots incremental,
        (processHosts eff (chosenParent snapshots timestamp incremental)
          timestamp hosts).2⟩ := by
  rcases hL : snapshots.getLast? with _ | l
  · cases incremental <;>
      simp [Backup, hne, hL, chosenParent, chosenInc]
  · have hm := hmono l hL
    cases incremental <;>
      simp [Backup, hne, hL, hm, chosenParent, chosenInc]

/-! ## C9: parent selection and incremental downgrade -/

/-- C9: with incremental requested and an empty snapshot history, Backup
produces a full snapshot: the parent equals the newly generated timestamp,
the incremental flag is forced off, and the run does not fail when the
collaborators succeed (there is no "no parent found" failure); with
incremental requested and a non-empty history (and a timestamp passing the
monotonicity check), the parent is the latest entry of `List()`. -/
theorem C9_incremental_empty_history_degrades_to_full (eff : BackupEffects)
    (h : SnapshotHistory) (hosts : List String) (timestamp : String)
    (hhosts : hosts ≠ []) :
    (h.List = [] →
      (Backup eff hosts h.List timestamp true).parent = timestamp ∧
      (Backup eff hosts h.List timestamp true).incremental = false ∧
      ((∀ g ∈ hosts, firstFailure eff timestamp timestamp g = none) →
        (Backup eff hosts h.List timestamp true).err = none)) ∧
    (∀ last, (h.List).getLast? = some last → strLt timestamp last = false →
      (Backup eff hosts h.List timestamp true).parent = last ∧
      (Backup eff hosts h.List timestamp true).incremental = true) := by
  have hne : hosts.isEmpty = false := by
    cases hosts with
    | nil => exact absurd rfl hhosts
    | cons a t => rfl
  constructor
  · intro hempty
    have hmono : ∀ l, (h.List).getLast? = some l → strLt timestamp l = false := by
      intro l hl; rw [hempty] at hl; simp at hl
    rw [Backup_run eff hosts (h.List) timestamp true hne hmono]
    rw [hempty]
    refine ⟨rfl, rfl, fun hok => ?_⟩
    exact processHosts_all_ok eff _ timestamp hosts hok
  · intro last hlast hlt
    have hmono : ∀ l, (h.List).getLast? = some l → strLt timestamp l = false := by
      intro l hl; rw [hlast] at hl; cases hl; exact hlt
    rw [Backup_run eff hosts (h.List) timestamp true hne hmono]
    constructor <;> simp [chosenParent, chosenInc, hlast]

/-- Witness for C9 at concrete inputs: empty history (parent becomes the
new timestamp `"t1"` and incremental is forced off, with a clean run), and
the one-snapshot history `hFull` (parent becomes `"t1"`, the latest
entry). -/
theorem C9_incremental_witness :
    ((Backup effOk ["hostA"] SnapshotHistory.empty.List "t1" true).parent = "t1" ∧
      (Backup effOk ["hostA"] SnapshotHistory.empty.List "t1" true).incremental = false ∧
      (Backup effOk ["hostA"] SnapshotHistory.empty.List "t1" true).err = none) ∧
    ((Backup effOk ["hostA"] hFull.List "t2" true).parent = "t1" ∧
      (Backup effOk ["hostA"] hFull.List "t2" true).incremental = true) := by
  constructor
  · obtain ⟨h1, h2, h3⟩ :=
      (C9_incremental_empty_history_degrades_to_full effOk
        SnapshotHistory.empty ["hostA"] "t1" (by decide)).1 (by decide)
    exact ⟨h1, h2, h3 (by decide)⟩
  · exact (C9_incremental_empty_history_degrades_to_full effOk hFull
      ["hostA"] "t2" (by decide)).2 "t1" (by decide) (by decide)

/-! ## C7: abort on first host failure -/

/-- C7: when, during the backup host loop, the capture (snapshot), upload
or local-cleanup (delete) step fails for some host — every host before it
having succeeded — Backup returns the wrapped error naming that stage and
host, the trace ends with that host's attempts, and no subsequent host is
processed: every traced action belongs to an earlier (successful) host or
to the failing host itself. -/
theorem C7_backup_aborts_on_first_host_failure (eff : BackupEffects)
    (snapshots : List String) (timestamp : String) (incremental : Bool)
    (good : List String) (bad : String) (rest : List String)
    (st : Stage) (cause : String)
    (hmono : ∀ l, snapshots.getLast? = some l → strLt timestamp l = false)
    (hgood : ∀ g ∈ good, firstFailure eff
      (chosenParent snapshots timestamp incremental) timestamp g = none)
    (hbad : firstFailure eff (chosenParent snapshots timestamp incremental)
      timestamp bad = some (st, cause)) :
    (Backup eff (good ++ bad :: rest) snapshots timestamp incremental).err =
      some (stageMsg st bad cause) ∧
    (Backup eff (good ++ bad :: rest) snapshots timestamp incremental).trace =
      good.flatMap okTrace ++ failTrace st bad ∧
    ∀ x ∈ (Backup eff (good ++ bad :: rest) snapshots timestamp
        incremental).trace, x.1 ∈ good ∨ x.1 = bad := by
  have hne : (good ++ bad :: rest).isEmpty = false := by
    cases good <;> rfl
  rw [Backup_run eff _ snapshots timestamp incremental hne hmono]
  rw [processHosts_append_ok eff _ timestamp good (bad :: rest) hgood,
    processHosts_cons_fail eff _ timestamp bad rest st cause hbad]
  refine ⟨rfl, rfl, ?_⟩
  intro x hx
  rcases List.mem_append.mp hx with hx | hx
  · rcases List.mem_flatMap.mp hx with ⟨g, hg, hxg⟩
    left
    have : x.1 = g := by
      simp [okTrace] at hxg
      rcases hxg with h | h | h <;> rw [h]
    rw [this]; exact hg
  · right
    cases st <;> simp [failTrace] at hx <;>
      first
        | (rcases hx with h | h <;> rw [h])
        | (rcases hx with h | h | h <;> rw [h])
        | rw [hx]

/-- Backup effects whose upload step fails on host `"h2"` only. -/
def effFailUp : BackupEffects where
  snap := fun _ _ => .ok ([], [])
  up := fun _ _ host _ => if host = "h2" then .error "boom" else .ok ()
  del := fun _ _ => .ok ()

/-- Witness for C7 at a concrete input: host `"h1"` succeeds, the upload
step fails on `"h2"`, and `"h3"` is never reached. -/
theorem C7_backup_abort_witness :
    (Backup effFailUp ["h1", "h2", "h3"] [] "t1" false).err =
      some (stageMsg .upload "h2" "boom") ∧
    (Backup effFailUp ["h1", "h2", "h3"] [] "t1" false).trace =
      ["h1"].flatMap okTrace ++ failTrace .upload "h2" := by
  have h := C7_backup_aborts_on_first_host_failure effFailUp [] "t1" false
    ["h1"] "h2" ["h3"] .upload "boom"
    (by intro l hl; simp at hl) (by decide) (by decide)
  exact ⟨h.1, h.2.1⟩

/-! ## Snapshot id bookkeeping lemmas -/

theorem aappend_map_fst (m : List (String × List String)) (k x : String) :
    (aappend m k x).map Prod.fst =
      if k ∈ m.map Prod.fst then m.map Prod.fst else m.map Prod.fst ++ [k] := by
  induction m with
  | nil => simp [aappend]
  | cons p t ih =>
    obtain ⟨k', v'⟩ := p
    by_cases hk : k' = k
    · subst hk
      simp [aappend]
    · have hk2 : ¬ k = k' := fun e => hk e.symm
      simp only [aappend, if_neg hk, List.map_cons, ih]
      by_cases hmem : k ∈ t.map Prod.fst
      · simp [hmem, hk2]
      · simp [hmem, hk2]

theorem Add_keys_fst (h h1 : SnapshotHistory) (k : String)
    (hA : h.Add k = some h1) :
    ∃ ts, (splitSlash k)[3]? = some ts ∧
      h1.keys.map Prod.fst =
        (if ts ∈ h.keys.map Prod.fst then h.keys.map Prod.fst
          else h.keys.map Prod.fst ++ [ts]) := by
  cases h2 : (splitSlash k)[2]? with
  | none => simp [SnapshotHistory.Add, h2] at hA
  | some parent =>
    cases h3 : (splitSlash k)[3]? with
    | none => simp [SnapshotHistory.Add, h2, h3] at hA
    | some ts =>
      simp only [SnapshotHistory.Add, h2, h3, Option.some.injEq] at hA
      refine ⟨ts, rfl, ?_⟩
      have hkeys : ((if parent ≠ ts
          then { h with parent := aset h.parent ts parent } else h) :
            SnapshotHistory).keys = h.keys := by
        split <;> rfl
      rw [← hA]
      simp only [hkeys, aappend_map_fst]

/-- The snapshot id observed in a key by `Add`: `parts[3]`. -/
def observedIds (ks : List String) : List String :=
  ks.filterMap fun k => (splitSlash k)[3]?

theorem addAll_keys_fst_mem (ks : List String) (h h' : SnapshotHistory)
    (had : addAll h ks = some h') (s : String) :
    s ∈ h'.keys.map Prod.fst ↔
      (s ∈ h.keys.map Prod.fst ∨ s ∈ observedIds ks) := by
  induction ks generalizing h with
  | nil =>
    simp only [addAll, Option.some.injEq] at had
    subst had
    simp [observedIds]
  | cons k t ih =>
    simp only [addAll, Option.bind_eq_some] at had
    obtain ⟨h1, hA, hrest⟩ := had
    obtain ⟨ts, hts, hfst⟩ := Add_keys_fst h h1 k hA
    rw [ih h1 hrest, hfst]
    have hobs : s ∈ observedIds (k :: t) ↔ s = ts ∨ s ∈ observedIds t := by
      simp [observedIds, hts]
    rw [hobs]
    by_cases hmem : ts ∈ h.keys.map Prod.fst
    · simp only [if_pos hmem]
      constructor
      · rintro (hs | hs)
        · exact Or.inl hs
        · exact Or.inr (Or.inr hs)
      · rintro (hs | hs | hs)
        · exact Or.inl hs
        · exact Or.inl (hs ▸ hmem)
        · exact Or.inr hs
    · simp only [if_neg hmem, List.mem_append, List.mem_singleton]
      tauto

theorem addAll_keys_fst_nodup (ks : List String) (h h' : SnapshotHistory)
    (had : addAll h ks = some h') (hnd : (h.keys.map Prod.fst).Nodup) :
    (h'.keys.map Prod.fst).Nodup := by
  induction ks generalizing h with
  | nil =>
    simp only [addAll, Option.some.injEq] at had
    subst had
    exact hnd
  | cons k t ih =>
    simp only [addAll, Option.bind_eq_some] at had
    obtain ⟨h1, hA, hrest⟩ := had
    obtain ⟨ts, _, hfst⟩ := Add_keys_fst h h1 k hA
    refine ih h1 hrest ?_
    rw [hfst]
    by_cases hmem : ts ∈ h.keys.map Prod.fst
    · simp only [if_pos hmem]
      exact hnd
    · simp [hmem, List.nodup_append, hnd]

/-! ## C8: List() is strictly ascending and exhaustive -/

/-- C8: for every finite sequence of `Add(key)` calls that Go completes
without panicking, `List()` is strictly ascending in the Go string order
(hence deduplicated) and contains exactly the distinct snapshot ids
observed in the added keys (the ids `Add` reads out of each key). -/
theorem C8_list_strictly_ascending_exactly_observed (ks : List String)
    (h : SnapshotHistory) (had : addAll SnapshotHistory.empty ks = some h) :
    (h.List).Pairwise (fun a b => strLt a b = true) ∧
    ∀ s, s ∈ h.List ↔ s ∈ observedIds ks := by
  have hperm : h.List.Perm (h.keys.map Prod.fst) :=
    List.perm_insertionSort _ _
  have hfstnd : (h.keys.map Prod.fst).Nodup :=
    addAll_keys_fst_nodup ks SnapshotHistory.empty h had
      (by simp [SnapshotHistory.empty])
  have hnd : (h.List).Nodup := (List.Perm.nodup_iff hperm).mpr hfstnd
  have hsorted : (h.List).Pairwise fun a b => strLe a b = true :=
    List.sorted_insertionSort _ _
  constructor
  · exact List.Pairwise.imp₂ (fun a b hle hne => strLt_of_le_of_ne a b hle hne)
      hsorted hnd
  · intro s
    rw [List.Perm.mem_iff hperm,
      addAll_keys_fst_mem ks SnapshotHistory.empty h had s]
    simp [SnapshotHistory.empty, observedIds]

/-- Witness for C8 at a concrete input: the two-key chain history. -/
theorem C8_list_witness :
    (hChain.List).Pairwise (fun a b => strLt a b = true) ∧
    ∀ s, s ∈ hChain.List ↔
      s ∈ observedIds ["/e/t1/t1/hA/cf/f1.gz", "/e/t1/t2/hA/cf/f2.gz"] :=
  C8_list_strictly_ascending_exactly_observed
    ["/e/t1/t1/hA/cf/f1.gz", "/e/t1/t2/hA/cf/f2.gz"] hChain hChain_addAll

/-! ## Chain walk lemmas -/

theorem keysWalk_mono (h : SnapshotHistory) (n : Nat) :
    ∀ (id : String) (acc : List String) (r : Option (List String)) (m : Nat),
      keysWalk h n id acc = some r → n ≤ m → keysWalk h m id acc = some r := by
  induction n with
  | zero => intro id acc r m hw; simp [keysWalk] at hw
  | succ n ih =>
    intro id acc r m hw hm
    obtain ⟨m', rfl⟩ : ∃ m', m = m' + 1 := by
      cases m with
      | zero => omega
      | succ m' => exact ⟨m', rfl⟩
    have hm' : n ≤ m' := by omega
    simp only [keysWalk] at hw ⊢
    cases hk : alookup h.keys id with
    | none => rw [hk] at hw; exact hw
    | some k =>
      rw [hk] at hw
      cases hp : alookup h.parent id with
      | none => rw [hp] at hw; exact hw
      | some p =>
        rw [hp] at hw
        exact ih p (acc ++ k) r m' hw hm'

theorem keysWalk_chain (h : SnapshotHistory) :
    ∀ (c : List String) (id : String), isChain h c = true →
      c.head? = some id → (∀ a ∈ c, (alookup h.keys a).isSome = true) →
      ∀ acc, keysWalk h c.length id acc =
        some (some (acc ++ c.flatMap (layer h))) := by
  intro c
  induction c with
  | nil => intro id hc; simp [isChain] at hc
  | cons a t ih =>
    intro id hc hhead hlay acc
    simp only [List.head?] at hhead
    cases hhead
    have hka : ∃ l, alookup h.keys a = some l := by
      have := hlay a (List.mem_cons_self a t)
      cases hk : alookup h.keys a with
      | none => rw [hk] at this; simp at this
      | some l => exact ⟨l, rfl⟩
    obtain ⟨l, hka⟩ := hka
    cases t with
    | nil =>
      have hpa : alookup h.parent a = none := by
        simp only [isChain, Option.isNone_iff_eq_none] at hc
        exact hc
      simp [keysWalk, hka, hpa, layer]
    | cons b t2 =>
      have hc2 : alookup h.parent a = some b ∧ isChain h (b :: t2) = true := by
        simpa [isChain] using hc
      have hlay2 : ∀ x ∈ b :: t2, (alookup h.keys x).isSome = true :=
        fun x hx => hlay x (List.mem_cons_of_mem a hx)
      have hrec := ih b hc2.2 rfl hlay2 (acc ++ l)
      set n := (b :: t2).length with hn
      have hstep : keysWalk h (n + 1) a acc = keysWalk h n b (acc ++ l) := by
        show (match alookup h.keys a with
          | none => some none
          | some k =>
            match alookup h.parent a with
            | none => some (some (acc ++ k))
            | some p => keysWalk h n p (acc ++ k)) = keysWalk h n b (acc ++ l)
        rw [hka, hc2.1]
      show keysWalk h (n + 1) a acc =
        some (some (acc ++ (a :: b :: t2).flatMap (layer h)))
      rw [hstep, hrec]
      simp [layer, hka, List.append_assoc]

theorem keysWalk_error_broken (h : SnapshotHistory) (n : Nat) :
    ∀ (id : String) (acc : List String), keysWalk h n id acc = some none →
      ∃ m s, iterParent h m id = some s ∧ alookup h.keys s = none := by
  induction n with
  | zero => intro id acc hw; simp [keysWalk] at hw
  | succ n ih =>
    intro id acc hw
    simp only [keysWalk] at hw
    cases hk : alookup h.keys id with
    | none => exact ⟨0, id, rfl, hk⟩
    | some k =>
      rw [hk] at hw
      cases hp : alookup h.parent id with
      | none => rw [hp] at hw; simp at hw
      | some p =>
        rw [hp] at hw
        obtain ⟨m, s, hiter, hmiss⟩ := ih p (acc ++ k) hw
        exact ⟨m + 1, s, by simp [iterParent, hp, hiter], hmiss⟩

theorem broken_keysWalk_error (h : SnapshotHistory) (n : Nat) :
    ∀ (id s : String), iterParent h n id = some s →
      alookup h.keys s = none →
      ∀ acc, ∃ m, keysWalk h m id acc = some none := by
  induction n with
  | zero =>
    intro id s hiter hmiss acc
    simp only [iterParent, Option.some.injEq] at hiter
    subst hiter
    exact ⟨1, by simp [keysWalk, hmiss]⟩
  | succ n ih =>
    intro id s hiter hmiss acc
    simp only [iterParent] at hiter
    cases hp : alookup h.parent id with
    | none => rw [hp] at hiter; simp at hiter
    | some p =>
      rw [hp] at hiter
      cases hk : alookup h.keys id with
      | none => exact ⟨1, by simp [keysWalk, hk]⟩
      | some k =>
        obtain ⟨m, hm⟩ := ih p s hiter hmiss (acc ++ k)
        exact ⟨m + 1, by simp only [keysWalk, hk, hp]; exact hm⟩

/-! ## Layer ownership invariant -/

theorem alookup_aappend (m : List (String × List String)) (t x a : String) :
    alookup (aappend m t x) a =
      if a = t then some ((alookup m t).getD [] ++ [x]) else alookup m a := by
  induction m with
  | nil =>
    by_cases hat : a = t
    · subst hat; simp [aappend, alookup]
    · have : ¬ t = a := fun e => hat e.symm
      simp [aappend, alookup, hat, this]
  | cons p tl ih =>
    obtain ⟨k', v'⟩ := p
    by_cases hk : k' = t
    · subst hk
      by_cases hat : a = k'
      · subst hat; simp [aappend, alookup]
      · have : ¬ k' = a := fun e => hat e.symm
        simp [aappend, alookup, hat, this]
    · by_cases hka : k' = a
      · subst hka
        simp [aappend, alookup, hk]
      · simp [aappend, alookup, hk, hka, ih]

/-- Every key recorded under a snapshot id decomposes (via `parts[3]`)
back to that id. -/
def KeysInv (h : SnapshotHistory) : Prop :=
  ∀ a l, alookup h.keys a = some l → ∀ k ∈ l, (splitSlash k)[3]? = some a

theorem Add_keysInv (h h1 : SnapshotHistory) (key : String)
    (hA : h.Add key = some h1) (hi : KeysInv h) : KeysInv h1 := by
  cases h2 : (splitSlash key)[2]? with
  | none => simp [SnapshotHistory.Add, h2] at hA
  | some parent =>
    cases h3 : (splitSlash key)[3]? with
    | none => simp [SnapshotHistory.Add, h2, h3] at hA
    | some ts =>
      simp only [SnapshotHistory.Add, h2, h3, Option.some.injEq] at hA
      have hkeys : h1.keys = aappend h.keys ts key := by
        rw [← hA]
        split <;> rfl
      intro a l hl k hk
      rw [hkeys, alookup_aappend] at hl
      by_cases hat : a = ts
      · subst hat
        rw [if_pos rfl] at hl
        cases hl
        rcases List.mem_append.mp hk with hk | hk
        · cases hold : alookup h.keys a with
          | none => rw [hold] at hk; simp at hk
          | some l0 =>
            rw [hold] at hk
            exact hi a l0 hold k hk
        · rw [List.mem_singleton.mp hk]
          exact h3
      · rw [if_neg hat] at hl
        exact hi a l hl k hk

theorem addAll_keysInv (ks : List String) (h h' : SnapshotHistory)
    (had : addAll h ks = some h') (hi : KeysInv h) : KeysInv h' := by
  induction ks generalizing h with
  | nil =>
    simp only [addAll, Option.some.injEq] at had
    subst had
    exact hi
  | cons k t ih =>
    simp only [addAll, Option.bind_eq_some] at had
    obtain ⟨h1, hA, hrest⟩ := had
    exact ih h1 hrest (Add_keysInv h h1 k hA hi)

theorem layers_disjoint (h : SnapshotHistory) (hi : KeysInv h)
    (a b : String) (hab : a ≠ b) (k : String) (hka : k ∈ layer h a) :
    k ∉ layer h b := by
  intro hkb
  have ha : ∃ la, alookup h.keys a = some la ∧ k ∈ la := by
    cases hl : alookup h.keys a with
    | none => rw [layer, hl] at hka; simp at hka
    | some la => rw [layer, hl] at hka; exact ⟨la, rfl, hka⟩
  have hb : ∃ lb, alookup h.keys b = some lb ∧ k ∈ lb := by
    cases hl : alookup h.keys b with
    | none => rw [layer, hl] at hkb; simp at hkb
    | some lb => rw [layer, hl] at hkb; exact ⟨lb, rfl, hkb⟩
  obtain ⟨la, hla, hkla⟩ := ha
  obtain ⟨lb, hlb, hklb⟩ := hb
  have h1 := hi a la hla k hkla
  have h2 := hi b lb hlb k hklb
  rw [h1] at h2
  exact hab (Option.some.inj h2)

/-! ## C4: Keys resolves the full chain artifact set -/

/-- C4: for any history built from a finite sequence of well-formed keys:
(1) `Keys(id)` on a root snapshot returns exactly the artifact list
recorded for `id` (one loop iteration); (2) for a complete parent chain
`c` starting at `id` with every layer recorded, `Keys(id)` returns exactly
the concatenation of all the chain's layers — nothing lost — and distinct
layers share no key, so nothing is duplicated across layers; (3) the walk
returns the "did not find snapshot" error precisely when `id` or some
ancestor reached through the parent mapping has no recorded artifacts
(a broken chain), never a silently truncated set. -/
theorem C4_keys_union_of_chain_layers (ks : List String)
    (h : SnapshotHistory) (had : addAll SnapshotHistory.empty ks = some h)
    (id : String) :
    (∀ l, alookup h.keys id = some l → alookup h.parent id = none →
      h.Keys id 1 = some (some l)) ∧
    (∀ c, isChain h c = true → c.head? = some id →
      (∀ a ∈ c, (alookup h.keys a).isSome = true) →
      h.Keys id c.length = some (some (c.flatMap (layer h))) ∧
      (∀ a ∈ c, ∀ b ∈ c, a ≠ b → ∀ k ∈ layer h a, k ∉ layer h b)) ∧
    ((∃ n, h.Keys id n = some none) ↔ BrokenChain h id) := by
  have hi : KeysInv h :=
    addAll_keysInv ks SnapshotHistory.empty h had
      (by intro a l hl; simp [SnapshotHistory.empty, alookup] at hl)
  refine ⟨?_, ?_, ?_⟩
  · intro l hl hp
    simp [SnapshotHistory.Keys, keysWalk, hl, hp]
  · intro c hc hh hlay
    constructor
    · have := keysWalk_chain h c id hc hh hlay []
      simpa [SnapshotHistory.Keys] using this
    · intro a _ b _ hab k hk
      exact layers_disjoint h hi a b hab k hk
  · constructor
    · rintro ⟨n, hn⟩
      obtain ⟨m, s, hiter, hmiss⟩ :=
        keysWalk_error_broken h n id [] hn
      exact ⟨m, s, hiter, hmiss⟩
    · rintro ⟨n, s, hiter, hmiss⟩
      obtain ⟨m, hm⟩ := broken_keysWalk_error h n id s hiter hmiss []
      exact ⟨m, hm⟩

/-- The two stored keys generating the two-layer chain `hChain`. -/
def chainKeys : List String :=
  ["/e/t1/t1/hA/cf/f1.gz", "/e/t1/t2/hA/cf/f2.gz"]

/-- Witness for C4 at concrete inputs: the root layer of `hChain`, the
two-layer chain from `"t2"`, and a broken chain at the unknown id
`"t9"`. -/
theorem C4_keys_witness :
    hChain.Keys "t1" 1 = some (some ["/e/t1/t1/hA/cf/f1.gz"]) ∧
    hChain.Keys "t2" 2 = some (some (["t2", "t1"].flatMap (layer hChain))) ∧
    (∃ n, hChain.Keys "t9" n = some none) := by
  refine ⟨?_, ?_, ?_⟩
  · exact (C4_keys_union_of_chain_layers chainKeys hChain hChain_addAll
      "t1").1 ["/e/t1/t1/hA/cf/f1.gz"] (by decide) (by decide)
  · exact ((C4_keys_union_of_chain_layers chainKeys hChain hChain_addAll
      "t2").2.1 ["t2", "t1"] (by decide) rfl (by decide)).1
  · exact (C4_keys_union_of_chain_layers chainKeys hChain hChain_addAll
      "t9").2.2.mpr ⟨0, "t9", rfl, by decide⟩

/-! ## C5: restore download ordering -/

theorem downloadKeys_all_ok (ok : String → Option String)
    (keys : List String) (pre : String) (hok : ∀ k ∈ keys, ok k = none) :
    downloadKeys ok keys pre =
      .ok (keys.map fun k => (k, stagingFile pre k)) := by
  induction keys with
  | nil => rfl
  | cons k t ih =>
    have hk := hok k (List.mem_cons_self k t)
    have ht : ∀ x ∈ t, ok x = none :=
      fun x hx => hok x (List.mem_cons_of_mem k hx)
    simp [downloadKeys, hk, ih ht]

/-- C5 counterexample: the claim says parent-layer artifacts are
downloaded and staged before child-layer artifacts (root-to-target,
oldest first).  On the two-layer chain, `Keys("t2")` returns the child
layer's key first and the parent (root) layer's key last, and
`downloadKeys` stages them in exactly that order: the parent-layer
artifact is downloaded after the child-layer artifact. -/
theorem C5_counterexample_parent_layer_downloaded_last :
    hChain.Keys "t2" 2 =
      some (some ["/e/t1/t2/hA/cf/f2.gz", "/e/t1/t1/hA/cf/f1.gz"]) ∧
    downloadKeys (fun _ => none)
        ["/e/t1/t2/hA/cf/f2.gz", "/e/t1/t1/hA/cf/f1.gz"] "/tmp/r" =
      .ok [("/e/t1/t2/hA/cf/f2.gz", "/tmp/r//e/t1/t2/hA/cf/f2"),
        ("/e/t1/t1/hA/cf/f1.gz", "/tmp/r//e/t1/t1/hA/cf/f1")] ∧
    "/e/t1/t2/hA/cf/f2.gz" ∈ layer hChain "t2" ∧
    "/e/t1/t1/hA/cf/f1.gz" ∈ layer hChain "t1" ∧
    hChain.Parent "t2" = "t1" := by
  refine ⟨by decide, by rfl, by decide, by decide, by decide⟩

/-- C5 (amended): during restore the resolved key list of an incremental
chain is ordered target-to-root — each child layer's artifacts precede
its parent layer's — and `downloadKeys` downloads and stages the keys in
exactly that list order (newest layer first, not oldest first). -/
theorem C5_download_order_is_target_to_root (h : SnapshotHistory)
    (c : List String) (id : String) (ok : String → Option String)
    (pre : String) (hc : isChain h c = true) (hh : c.head? = some id)
    (hlay : ∀ a ∈ c, (alookup h.keys a).isSome = true)
    (hok : ∀ k ∈ c.flatMap (layer h), ok k = none) :
    h.Keys id c.length = some (some (c.flatMap (layer h))) ∧
    downloadKeys ok (c.flatMap (layer h)) pre =
      .ok ((c.flatMap (layer h)).map fun k => (k, stagingFile pre k)) := by
  constructor
  · have := keysWalk_chain h c id hc hh hlay []
    simpa [SnapshotHistory.Keys] using this
  · exact downloadKeys_all_ok ok _ pre hok

/-- Witness for the amended C5 theorem on the two-layer chain. -/
theorem C5_download_order_witness :
    hChain.Keys "t2" 2 =
      some (some (["t2", "t1"].flatMap (layer hChain))) ∧
    downloadKeys (fun _ => none) (["t2", "t1"].flatMap (layer hChain))
        "/tmp/r" =
      .ok ((["t2", "t1"].flatMap (layer hChain)).map
        fun k => (k, stagingFile "/tmp/r" k)) :=
  C5_download_order_is_target_to_root hChain ["t2", "t1"] "t2"
    (fun _ => none) "/tmp/r" (by decide) rfl (by decide) (by decide)

/-! ## C10: the chain walk has no cycle guard -/

/-- The cyclic history two `Add` calls produce: `parent` maps `"a" ↦ "b"`
and `"b" ↦ "a"`, both snapshots having recorded artifacts. -/
def hCyc : SnapshotHistory :=
  ⟨[("b", "a"), ("a", "b")],
    [("b", ["/e/a/b/h/f.gz"]), ("a", ["/e/b/a/h/g.gz"])]⟩

theorem hCyc_addAll :
    addAll SnapshotHistory.empty ["/e/a/b/h/f.gz", "/e/b/a/h/g.gz"] =
      some hCyc := by
  decide

theorem hCyc_walk_never_returns (n : Nat) :
    ∀ acc, keysWalk hCyc n "a" acc = none ∧
      keysWalk hCyc n "b" acc = none := by
  induction n with
  | zero => intro acc; exact ⟨rfl, rfl⟩
  | succ m ih =>
    intro acc
    have hka : alookup hCyc.keys "a" = some ["/e/b/a/h/g.gz"] := by decide
    have hpa : alookup hCyc.parent "a" = some "b" := by decide
    have hkb : alookup hCyc.keys "b" = some ["/e/a/b/h/f.gz"] := by decide
    have hpb : alookup hCyc.parent "b" = some "a" := by decide
    constructor
    · show keysWalk hCyc (m + 1) "a" acc = none
      simp only [keysWalk, hka, hpa]
      exact (ih (acc ++ ["/e/b/a/h/g.gz"])).2
    · show keysWalk hCyc (m + 1) "b" acc = none
      simp only [keysWalk, hkb, hpb]
      exact (ih (acc ++ ["/e/a/b/h/f.gz"])).1

/-- C10 counterexample: two `Add` calls reach a state whose parent
mapping is a two-cycle on present snapshots, and on it the chain walk in
`Keys("a")` never returns for any amount of fuel — the code neither
bounds the walk nor detects repeated visits. -/
theorem C10_counterexample_cyclic_walk_diverges :
    addAll SnapshotHistory.empty ["/e/a/b/h/f.gz", "/e/b/a/h/g.gz"] =
      some hCyc ∧
    ¬ ∃ (n : Nat) (r : Option (List String)), hCyc.Keys "a" n = some r := by
  refine ⟨hCyc_addAll, ?_⟩
  rintro ⟨n, r, hr⟩
  simp only [SnapshotHistory.Keys] at hr
  rw [(hCyc_walk_never_returns n []).1] at hr
  exact Option.noConfusion hr

/-- C10 (amended): the chain walk in `Keys` terminates exactly by running
off the end of the chain, not by any bound or cycle detection: whenever
the iterated parent mapping reaches, within finitely many steps, a
snapshot with no recorded artifacts (the walk errors) or no parent entry
(the walk returns its accumulator), the walk terminates within that many
iterations; on a reachable state with a cyclic parent mapping it runs
forever (see the counterexample). -/
theorem C10_walk_terminates_when_chain_ends (h : SnapshotHistory)
    (n : Nat) (id s : String) (acc : List String)
    (hreach : iterParent h n id = some s)
    (hstop : alookup h.keys s = none ∨ alookup h.parent s = none) :
    ∃ r, keysWalk h (n + 1) id acc = some r := by
  induction n generalizing id acc with
  | zero =>
    simp only [iterParent, Option.some.injEq] at hreach
    subst hreach
    cases hk : alookup h.keys id with
    | none => exact ⟨none, by simp [keysWalk, hk]⟩
    | some k =>
      have hp : alookup h.parent id = none := by
        rcases hstop with hs | hs
        · rw [hk] at hs; exact absurd hs (by simp)
        · exact hs
      exact ⟨some (acc ++ k), by simp [keysWalk, hk, hp]⟩
  | succ m ih =>
    simp only [iterParent] at hreach
    cases hp : alookup h.parent id with
    | none => rw [hp] at hreach; simp at hreach
    | some p =>
      rw [hp] at hreach
      cases hk : alookup h.keys id with
      | none => exact ⟨none, by simp [keysWalk, hk]⟩
      | some k =>
        obtain ⟨r, hr⟩ := ih p (acc ++ k) hreach
        have hstep : keysWalk h (m + 1 + 1) id acc =
            keysWalk h (m + 1) p (acc ++ k) := by
          show (match alookup h.keys id with
            | none => some none
            | some k2 =>
              match alookup h.parent id with
              | none => some (some (acc ++ k2))
              | some p2 => keysWalk h (m + 1) p2 (acc ++ k2)) =
            keysWalk h (m + 1) p (acc ++ k)
          rw [hk, hp]
        exact ⟨r, hstep.trans hr⟩

/-- Witness for the amended C10 theorem: on the two-layer chain the walk
from `"t2"` reaches the root `"t1"` in one parent step and terminates
with fuel 2. -/
theorem C10_walk_terminates_witness :
    ∃ r, keysWalk hChain (1 + 1) "t2" [] = some r :=
  C10_walk_terminates_when_chain_ends hChain 1 "t2" "t1" []
    (by decide) (Or.inr (by decide))

/-! ## C1: key codec round-trip -/

/-- C1: the claim says `Add`'s decomposition recovers the parent and
snapshot id passed to `getFileKey`.  `getFileKey` prepends a leading
slash, so splitting the key on `'/'` yields an empty first segment and
shifts every field by one: `parts[2]` (read as the parent) is the
keyspace, and `parts[3]` (read as the snapshot id) is the parent.  At the
concrete input with parent `"t4"` and timestamp `"t5"`, `Add` records
snapshot id `"t4"` with parent `"ks"`, recovering neither field. -/
theorem C1_roundtrip_decodes_shifted_segments :
    getFileKey "env" "ks" "t4" "t5" "hostA"
        "/var/lib/data/ks/cf/snapshots/tag/f1.db" false =
      "/env/ks/t4/t5/hostA/var/lib/data/ks/cf/f1.db.gz" ∧
    (splitSlash "/env/ks/t4/t5/hostA/var/lib/data/ks/cf/f1.db.gz")[2]? =
      some "ks" ∧
    (splitSlash "/env/ks/t4/t5/hostA/var/lib/data/ks/cf/f1.db.gz")[3]? =
      some "t4" ∧
    SnapshotHistory.empty.Add
        "/env/ks/t4/t5/hostA/var/lib/data/ks/cf/f1.db.gz" =
      some ⟨[("t4", "ks")],
        [("t4", ["/env/ks/t4/t5/hostA/var/lib/data/ks/cf/f1.db.gz"])]⟩ ∧
    ("ks", "t4") ≠ ("t4", "t5") := by
  refine ⟨by rfl, by decide, by decide, by decide, by decide⟩

/-! ## C3: the worked two-key example -/

/-- The history the code actually builds from the spec's worked example
keys: both keys land under snapshot id `"t1"` with parent `"ks"`. -/
def hEx : SnapshotHistory :=
  ⟨[("t1", "ks")],
    [("t1", ["/env/ks/t1/t1/hostA/cf/snap/f1.gz",
      "/env/ks/t1/t2/hostA/cf/f2.gz"])]⟩

/-- C3: the claim's expected results on the two stored keys are
`List() = [t1, t2]`, `Valid("t2") = true`, `Valid("t3") = false`,
`Keys("t2")` containing both artifact keys, `Parent("t1") = "t1"` and
`Parent("t2") = "t1"`.  Because `Add` reads `parts[2]`/`parts[3]` of the
slash-leading keys, the code instead collapses both keys under snapshot
id `"t1"` with parent `"ks"`: `List() = ["t1"]`, `Valid("t2") = false`,
`Parent("t1") = "ks"`, `Parent("t2") = "t2"`, and `Keys("t1")` errors
(its chain walks to the phantom parent `"ks"`, which has no
artifacts). -/
theorem C3_worked_example_diverges :
    addAll SnapshotHistory.empty
        ["/env/ks/t1/t1/hostA/cf/snap/f1.gz",
          "/env/ks/t1/t2/hostA/cf/f2.gz"] = some hEx ∧
    hEx.List = ["t1"] ∧
    hEx.Valid "t2" = false ∧
    hEx.Valid "t3" = false ∧
    hEx.Parent "t1" = "ks" ∧
    hEx.Parent "t2" = "t2" ∧
    hEx.Keys "t1" 9 = some none := by
  refine ⟨by decide, by decide, by decide, by decide, by decide, by decide,
    by decide⟩
